import Mathlib

/-!
Verification of the LBO debt calculator core (`lbo_debt_calculator.py`).

The computational core consists of two pure functions:
* `compute_monthly_schedule`, producing a month-by-month amortization
  schedule for a fixed-rate loan, and
* `aggregate_schedule`, grouping the monthly rows by year and either
  summing them (view `"Annuel"`) or averaging them (view `"Mensuel"`).

The embedding works over `ℚ` (exact rational semantics of the arithmetic
the Python code performs on floats).  Schedules are lists of rows.
-/

namespace LBO

/-- `LoanInputs` dataclass: principal, annual rate in percent, term in years. -/
structure LoanInputs where
  principal : ℚ
  annual_rate : ℚ
  years : ℕ
  deriving Repr, DecidableEq

/-- One row of the monthly amortization schedule, as built inside the loop of
`compute_monthly_schedule`. -/
structure ScheduleRow where
  month : ℕ
  year : ℤ
  payment : ℚ
  principal : ℚ
  interest : ℚ
  deriving Repr, DecidableEq

/-- `months = loan.years * 12` (line 17 of the source). -/
def months (loan : LoanInputs) : ℕ :=
  loan.years * 12

/-- `monthly_rate = loan.annual_rate / 100 / 12` (line 18 of the source). -/
def monthly_rate (loan : LoanInputs) : ℚ :=
  loan.annual_rate / 100 / 12

/-- The fixed monthly payment (lines 20–23 of the source): straight-line when
the monthly rate is zero, otherwise the standard annuity formula. -/
def monthly_payment (loan : LoanInputs) : ℚ :=
  if monthly_rate loan = 0 then
    loan.principal / (months loan : ℚ)
  else
    loan.principal * monthly_rate loan /
      (1 - (1 + monthly_rate loan) ^ (-(months loan : ℤ)))

/-- One iteration of the balance update of the schedule loop
(`balance = max(0.0, balance - principal_paid)`, lines 28–30 of the source). -/
def loan_step (rate payment b : ℚ) : ℚ :=
  max 0 (b - (payment - b * rate))

/-- The loop of `compute_monthly_schedule` (lines 25–39 of the source):
emit `k` rows starting at month `m` from balance `b`. -/
def scheduleAux (rate payment : ℚ) : ℚ → ℕ → ℕ → List ScheduleRow
  | _, _, 0 => []
  | b, m, Nat.succ k =>
    let interest := b * rate
    let principal_paid := payment - interest
    { month := m
      year := ⌈(m : ℚ) / 12⌉
      payment := payment
      principal := principal_paid
      interest := interest } ::
      scheduleAux rate payment (max 0 (b - principal_paid)) (m + 1) k

/-- `compute_monthly_schedule` (lines 15–40 of the source). -/
def compute_monthly_schedule (loan : LoanInputs) : List ScheduleRow :=
  scheduleAux (monthly_rate loan) (monthly_payment loan) loan.principal 1 (months loan)

/-- One row of the yearly aggregate produced by `aggregate_schedule`. -/
structure YearlyRow where
  year : ℤ
  payment : ℚ
  principal : ℚ
  interest : ℚ
  deriving Repr, DecidableEq

/-- `aggregate_schedule` (lines 43–71 of the source): group the monthly rows
by year (pandas `groupby` sorts the distinct keys ascending), sum
payment/principal/interest and count the months per group; when the view is
exactly `"Mensuel"`, divide each summed field by the month count. -/
def aggregate_schedule (df : List ScheduleRow) (view : String) : List YearlyRow :=
  let years := List.insertionSort (· ≤ ·) (df.map (·.year)).dedup
  years.map (fun y =>
    let group := df.filter (fun r => r.year = y)
    let paySum := (group.map (·.payment)).sum
    let prinSum := (group.map (·.principal)).sum
    let intSum := (group.map (·.interest)).sum
    let cnt : ℚ := (group.length : ℚ)
    if view = "Mensuel" then
      { year := y, payment := paySum / cnt, principal := prinSum / cnt,
        interest := intSum / cnt }
    else
      { year := y, payment := paySum, principal := prinSum, interest := intSum })

/-- The valuation multiple of `main` (lines 93–97 of the source):
`sell_price / ebitda` when `ebitda > 0`, suppressed otherwise. -/
def valuation_multiple (sell_price ebitda : ℚ) : Option ℚ :=
  if 0 < ebitda then some (sell_price / ebitda) else none

/-- The loop-carried `balance` variable of `compute_monthly_schedule` after
`k` iterations, starting from balance `b` (lines 26–30 of the source). -/
def balAfter (rate payment b : ℚ) : ℕ → ℚ
  | 0 => b
  | k + 1 => loan_step rate payment (balAfter rate payment b k)

/-- The unclamped balance recurrence (the loop body without the `max(0, ·)`
clamp), used to analyse when the clamp is inert. -/
def ubal (rate payment b : ℚ) : ℕ → ℚ
  | 0 => b
  | k + 1 => ubal rate payment b k - (payment - ubal rate payment b k * rate)

/-- The sorted list of distinct years of a schedule, as produced by the
`groupby("year")` step of `aggregate_schedule`. -/
def schedule_years (df : List ScheduleRow) : List ℤ :=
  List.insertionSort (· ≤ ·) (df.map (·.year)).dedup

/-! ### Basic structural lemmas about the schedule loop -/

theorem scheduleAux_map_month (rate payment : ℚ) :
    ∀ (k : ℕ) (b : ℚ) (m : ℕ),
      (scheduleAux rate payment b m k).map (·.month) = List.range' m k := by
  intro k
  induction k with
  | zero => intro b m; rfl
  | succ k ih =>
      intro b m
      simp only [scheduleAux, List.map_cons, List.range'_succ]
      exact congrArg (m :: ·) (ih _ _)

theorem scheduleAux_length (rate payment : ℚ) (k : ℕ) (b : ℚ) (m : ℕ) :
    (scheduleAux rate payment b m k).length = k := by
  have h := congrArg List.length (scheduleAux_map_month rate payment k b m)
  simpa using h

theorem scheduleAux_year (rate payment : ℚ) :
    ∀ (k : ℕ) (b : ℚ) (m : ℕ), ∀ r ∈ scheduleAux rate payment b m k,
      r.year = ⌈(r.month : ℚ) / 12⌉ := by
  intro k
  induction k with
  | zero => intro b m r hr; simp [scheduleAux] at hr
  | succ k ih =>
      intro b m r hr
      simp only [scheduleAux, List.mem_cons] at hr
      rcases hr with h | h
      · subst h; rfl
      · exact ih _ _ r h

theorem scheduleAux_row_sum (rate payment : ℚ) :
    ∀ (k : ℕ) (b : ℚ) (m : ℕ), ∀ r ∈ scheduleAux rate payment b m k,
      r.payment = r.principal + r.interest ∧ r.payment = payment := by
  intro k
  induction k with
  | zero => intro b m r hr; simp [scheduleAux] at hr
  | succ k ih =>
      intro b m r hr
      simp only [scheduleAux, List.mem_cons] at hr
      rcases hr with h | h
      · subst h; constructor
        · simp
        · rfl
      · exact ih _ _ r h

/-! ### The loop-carried balance -/

theorem ubal_succ (r p b : ℚ) (k : ℕ) :
    ubal r p b (k + 1) = ubal r p b k - (p - ubal r p b k * r) := rfl

theorem ubal_shift (r p b : ℚ) :
    ∀ k, ubal r p (b - (p - b * r)) k = ubal r p b (k + 1) := by
  intro k
  induction k with
  | zero => rfl
  | succ k ih => rw [ubal_succ, ih, ubal_succ r p b (k + 1)]

theorem balAfter_shift (r p b : ℚ) :
    ∀ k, balAfter r p (loan_step r p b) k = balAfter r p b (k + 1) := by
  intro k
  induction k with
  | zero => rfl
  | succ k ih =>
      show loan_step r p (balAfter r p (loan_step r p b) k) = _
      rw [ih]
      rfl

theorem balAfter_nonneg (r p : ℚ) {b : ℚ} (hb : 0 ≤ b) :
    ∀ k, 0 ≤ balAfter r p b k
  | 0 => hb
  | _ + 1 => le_max_left 0 _

/-- While the unclamped balance stays nonnegative, the clamp in the loop is
inert and the loop balance equals the unclamped recurrence. -/
theorem balAfter_eq_ubal (r p b : ℚ) :
    ∀ k, (∀ j, j ≤ k → 0 ≤ ubal r p b j) → balAfter r p b k = ubal r p b k := by
  intro k
  induction k with
  | zero => intro _; rfl
  | succ k ih =>
      intro h
      have hk := ih fun j hj => h j (Nat.le_succ_of_le hj)
      show loan_step r p (balAfter r p b k) = _
      rw [hk, loan_step]
      have hnn := h (k + 1) le_rfl
      rw [ubal_succ] at hnn ⊢
      exact max_eq_right hnn

/-- While the unclamped balance stays nonnegative, the principal portions of
the schedule telescope: their sum is the initial balance minus the final
unclamped balance. -/
theorem sum_principal_noclamp (r p : ℚ) :
    ∀ (k : ℕ) (b : ℚ) (m : ℕ), (∀ j, j ≤ k → 0 ≤ ubal r p b j) →
      ((scheduleAux r p b m k).map (·.principal)).sum = b - ubal r p b k := by
  intro k
  induction k with
  | zero => intro b m _; simp [scheduleAux, ubal]
  | succ k ih =>
      intro b m h
      have h1 : 0 ≤ b - (p - b * r) := by
        have := h 1 (Nat.succ_le_succ (Nat.zero_le k))
        rw [ubal_succ] at this
        simpa [ubal] using this
      simp only [scheduleAux, List.map_cons, List.sum_cons]
      rw [max_eq_right h1]
      rw [ih (b - (p - b * r)) (m + 1) (fun j hj => by
        rw [ubal_shift]
        exact h (j + 1) (Nat.succ_le_succ hj))]
      rw [ubal_shift]
      ring

/-- Closed form of the unclamped balance. -/
theorem ubal_closed {r : ℚ} (hr : r ≠ 0) (p b : ℚ) :
    ∀ k, ubal r p b k = (1 + r) ^ k * (b - p / r) + p / r := by
  intro k
  induction k with
  | zero => simp [ubal]
  | succ k ih =>
      rw [ubal_succ, ih]
      field_simp
      ring

/-- The interest column of the schedule is the loop balance times the monthly
rate, month by month. -/
theorem scheduleAux_map_interest (r p : ℚ) :
    ∀ (k : ℕ) (b : ℚ) (m : ℕ),
      (scheduleAux r p b m k).map (·.interest) =
        (List.range k).map (fun i => balAfter r p b i * r) := by
  intro k
  induction k with
  | zero => intro b m; rfl
  | succ k ih =>
      intro b m
      rw [List.range_succ_eq_map]
      simp only [scheduleAux, List.map_cons, List.map_map]
      refine congrArg (b * r :: ·) ?_
      rw [ih (max 0 (b - (p - b * r))) (m + 1)]
      refine List.map_congr_left ?_
      intro i _
      show balAfter r p (loan_step r p b) i * r = _
      rw [balAfter_shift]
      rfl

theorem annuity_final_zero {r P x : ℚ} (hr : r ≠ 0) (hx : x ≠ 0)
    (hD : 1 - x⁻¹ ≠ 0) :
    x * (P - P * r / (1 - x⁻¹) / r) + P * r / (1 - x⁻¹) / r = 0 := by
  have hx1 : x - 1 ≠ 0 := by
    intro h
    apply hD
    have hx' : x = 1 := by linarith
    rw [hx', inv_one, sub_self]
  have h2 : 1 - x⁻¹ = (x - 1) / x := by
    field_simp
  rw [h2, div_div_eq_mul_div]
  field_simp
  ring

/-- With the annuity payment of lines 22–23 of the source, the unclamped
balance stays nonnegative through month `n`, decreases month by month, and is
exactly zero after month `n`. -/
theorem annuity_facts {r P : ℚ} (hr : 0 < r) (hP : 0 ≤ P) {n : ℕ} (hn : n ≠ 0) :
    (∀ j, j ≤ n → 0 ≤ ubal r (P * r / (1 - (1 + r) ^ (-(n : ℤ)))) P j) ∧
    (∀ j, ubal r (P * r / (1 - (1 + r) ^ (-(n : ℤ)))) P (j + 1) ≤
      ubal r (P * r / (1 - (1 + r) ^ (-(n : ℤ)))) P j) ∧
    ubal r (P * r / (1 - (1 + r) ^ (-(n : ℤ)))) P n = 0 := by
  have h1 : (1 : ℚ) < 1 + r := by linarith
  have hx1 : 1 < (1 + r) ^ n := one_lt_pow₀ h1 hn
  have hxne : ((1 + r) : ℚ) ^ n ≠ 0 := ne_of_gt (by linarith)
  have hz : ((1 + r) : ℚ) ^ (-(n : ℤ)) = ((1 + r) ^ n)⁻¹ := by
    rw [zpow_neg, zpow_natCast]
  have hD : 0 < 1 - ((1 + r) : ℚ) ^ (-(n : ℤ)) := by
    rw [hz]
    have : ((1 + r) ^ n)⁻¹ < 1 := inv_lt_one_of_one_lt₀ hx1
    linarith
  have hD1 : 1 - ((1 + r) : ℚ) ^ (-(n : ℤ)) ≤ 1 := by
    rw [hz]
    have : 0 < ((1 + r) ^ n)⁻¹ := inv_pos.mpr (by linarith)
    linarith
  set p : ℚ := P * r / (1 - (1 + r) ^ (-(n : ℤ))) with hpdef
  have hclosed := ubal_closed (ne_of_gt hr) p P
  have hPc : P - p / r ≤ 0 := by
    have hc : P ≤ p / r := by
      rw [hpdef, div_div, mul_comm (1 - (1 + r) ^ (-(n : ℤ))) r, ← div_div,
        mul_div_assoc, div_self (ne_of_gt hr), mul_one]
      rw [le_div_iff₀ hD]
      exact mul_le_of_le_one_right hP hD1
    linarith
  have hfinal : ubal r p P n = 0 := by
    rw [hclosed n, hpdef, hz]
    exact annuity_final_zero (ne_of_gt hr) hxne (by rw [← hz]; exact ne_of_gt hD)
  have h0 : (1 + r) ^ n * (P - p / r) + p / r = 0 := by
    rw [← hclosed n]
    exact hfinal
  refine ⟨?_, ?_, hfinal⟩
  · intro j hj
    have hpow : ((1 + r) : ℚ) ^ j ≤ (1 + r) ^ n := pow_le_pow_right₀ (by linarith) hj
    have hprod : 0 ≤ ((1 + r) ^ j - (1 + r) ^ n) * (P - p / r) := by
      have := mul_nonneg (neg_nonneg.mpr (by linarith :
          ((1 + r) : ℚ) ^ j - (1 + r) ^ n ≤ 0)) (neg_nonneg.mpr hPc)
      rwa [neg_mul_neg] at this
    have key : (1 + r) ^ j * (P - p / r) + p / r =
        ((1 + r) ^ n * (P - p / r) + p / r) +
          ((1 + r) ^ j - (1 + r) ^ n) * (P - p / r) := by ring
    rw [hclosed j, key, h0, zero_add]
    exact hprod
  · intro j
    have hpj : (0 : ℚ) < (1 + r) ^ j := pow_pos (by linarith) j
    have hstep : (1 + r) ^ j * r * (P - p / r) ≤ 0 :=
      mul_nonpos_of_nonneg_of_nonpos (by positivity) hPc
    rw [hclosed (j + 1), hclosed j]
    have key : ((1 + r) : ℚ) ^ (j + 1) * (P - p / r) + p / r =
        ((1 + r) ^ j * (P - p / r) + p / r) + (1 + r) ^ j * r * (P - p / r) := by
      rw [pow_succ]
      ring
    rw [key]
    linarith

theorem annuity_denom_pos {r : ℚ} (hr : 0 < r) {n : ℕ} (hn : n ≠ 0) :
    0 < 1 - (1 + r) ^ (-(n : ℤ)) := by
  have h1 : (1 : ℚ) < 1 + r := by linarith
  have hx1 : 1 < (1 + r) ^ n := one_lt_pow₀ h1 hn
  have hz : ((1 + r) : ℚ) ^ (-(n : ℤ)) = ((1 + r) ^ n)⁻¹ := by
    rw [zpow_neg, zpow_natCast]
  rw [hz]
  have : ((1 + r) ^ n)⁻¹ < 1 := inv_lt_one_of_one_lt₀ hx1
  linarith

theorem monthly_rate_pos {loan : LoanInputs} (h : 0 < loan.annual_rate) :
    0 < monthly_rate loan := by
  unfold monthly_rate
  positivity

theorem monthly_rate_nonneg {loan : LoanInputs} (h : 0 ≤ loan.annual_rate) :
    0 ≤ monthly_rate loan := by
  unfold monthly_rate
  positivity

theorem months_ne_zero {loan : LoanInputs} (h : 1 ≤ loan.years) :
    months loan ≠ 0 :=
  Nat.mul_ne_zero (Nat.one_le_iff_ne_zero.mp h) (by decide)

theorem monthly_payment_of_rate_ne {loan : LoanInputs} (h : monthly_rate loan ≠ 0) :
    monthly_payment loan =
      loan.principal * monthly_rate loan /
        (1 - (1 + monthly_rate loan) ^ (-(months loan : ℤ))) := by
  rw [monthly_payment, if_neg h]

theorem monthly_payment_of_rate_eq {loan : LoanInputs} (h : monthly_rate loan = 0) :
    monthly_payment loan = loan.principal / (months loan : ℚ) := by
  rw [monthly_payment, if_pos h]

/-- At zero rate the loop balance decays linearly: after `k ≤ n` months it is
`P - k·(P/n)`. -/
theorem balAfter_zero_rate_formula {P : ℚ} (hP : 0 ≤ P) {n : ℕ} (hn : n ≠ 0) :
    ∀ k, k ≤ n → balAfter 0 (P / (n : ℚ)) P k = P - (k : ℚ) * (P / (n : ℚ)) := by
  have hfrac : 0 ≤ P / (n : ℚ) := by positivity
  intro k
  induction k with
  | zero => intro _; simp [balAfter]
  | succ k ih =>
      intro hk
      have hk' : k ≤ n := Nat.le_of_succ_le hk
      show loan_step 0 (P / (n : ℚ)) (balAfter 0 (P / (n : ℚ)) P k) = _
      rw [ih hk', loan_step, mul_zero, sub_zero]
      have hnn : 0 ≤ P - (k : ℚ) * (P / (n : ℚ)) - P / (n : ℚ) := by
        have hcast : ((k : ℚ) + 1) ≤ (n : ℚ) := by exact_mod_cast hk
        have hmul : ((k : ℚ) + 1) * (P / (n : ℚ)) ≤ (n : ℚ) * (P / (n : ℚ)) :=
          mul_le_mul_of_nonneg_right hcast hfrac
        have hid : (n : ℚ) * (P / (n : ℚ)) = P := by
          field_simp
        nlinarith
      rw [max_eq_right hnn]
      push_cast
      ring

theorem balAfter_zero_rate_mono {p : ℚ} (hp : 0 ≤ p) {b : ℚ} (hb : 0 ≤ b) (k : ℕ) :
    balAfter 0 p b (k + 1) ≤ balAfter 0 p b k := by
  show loan_step 0 p (balAfter 0 p b k) ≤ _
  rw [loan_step, mul_zero, sub_zero]
  exact max_le (balAfter_nonneg 0 p hb k) (sub_le_self _ hp)

theorem balAfter_zero_rate_final {P : ℚ} (hP : 0 ≤ P) {n : ℕ} (hn : n ≠ 0) :
    balAfter 0 (P / (n : ℚ)) P n = 0 := by
  rw [balAfter_zero_rate_formula hP hn n le_rfl]
  have hnq : ((n : ℚ)) ≠ 0 := Nat.cast_ne_zero.mpr hn
  field_simp

/-! ### Grouping lemmas for the aggregator -/

theorem sum_map_ite_mem {α : Type} [DecidableEq α] (K : List α) (a : α) (c : ℚ)
    (g : α → ℚ) (hnd : K.Nodup) (ha : a ∈ K) :
    (K.map fun k => if a = k then c + g k else g k).sum = c + (K.map g).sum := by
  induction K with
  | nil => cases ha
  | cons b K ih =>
      rcases List.mem_cons.mp ha with rfl | hmem
      · have hnotin : a ∉ K := (List.nodup_cons.mp hnd).1
        have hmap : (K.map fun k => if a = k then c + g k else g k) = K.map g := by
          refine List.map_congr_left ?_
          intro x hx
          rw [if_neg]
          intro h
          exact hnotin (h ▸ hx)
        simp only [List.map_cons, List.sum_cons]
        rw [hmap]
        simp only [if_pos trivial]
        ring
      · have hne : a ≠ b := by
          rintro rfl
          exact (List.nodup_cons.mp hnd).1 hmem
        simp only [List.map_cons, List.sum_cons, if_neg hne]
        rw [ih (List.nodup_cons.mp hnd).2 hmem]
        ring

theorem sum_filter_partition {α κ : Type} [DecidableEq κ] (key : α → κ) (f : α → ℚ) :
    ∀ (l : List α) (K : List κ), K.Nodup → (∀ x ∈ l, key x ∈ K) →
      (K.map fun k => ((l.filter fun x => key x = k).map f).sum).sum = (l.map f).sum := by
  intro l
  induction l with
  | nil => intro K _ _; simp
  | cons x t ih =>
      intro K hnd hmem
      have hx : key x ∈ K := hmem x (List.mem_cons_self x t)
      have heq : (K.map fun k => (((x :: t).filter fun y => key y = k).map f).sum)
          = K.map fun k =>
              if key x = k then f x + ((t.filter fun y => key y = k).map f).sum
              else ((t.filter fun y => key y = k).map f).sum := by
        refine List.map_congr_left ?_
        intro k _
        by_cases h : key x = k
        · rw [if_pos h, List.filter_cons]
          simp [h]
        · rw [if_neg h, List.filter_cons]
          simp [h]
      rw [heq, sum_map_ite_mem K (key x) (f x) _ hnd hx]
      simp only [List.map_cons, List.sum_cons]
      rw [ih K hnd (fun y hy => hmem y (List.mem_cons_of_mem x hy))]

theorem schedule_years_nodup (df : List ScheduleRow) : (schedule_years df).Nodup :=
  ((List.perm_insertionSort _ _).nodup_iff).mpr (List.nodup_dedup _)

theorem schedule_years_sorted (df : List ScheduleRow) :
    (schedule_years df).Sorted (· ≤ ·) :=
  List.sorted_insertionSort _ _

theorem mem_schedule_years {df : List ScheduleRow} {y : ℤ} :
    y ∈ schedule_years df ↔ y ∈ df.map (·.year) := by
  rw [schedule_years, List.mem_insertionSort, List.mem_dedup]

theorem schedule_years_group_length_pos {df : List ScheduleRow} {y : ℤ}
    (hy : y ∈ schedule_years df) :
    0 < (df.filter fun r => r.year = y).length := by
  rw [mem_schedule_years, List.mem_map] at hy
  obtain ⟨r, hr, hry⟩ := hy
  have : r ∈ df.filter fun r => r.year = y := by
    rw [List.mem_filter]
    exact ⟨hr, by simp [hry]⟩
  exact List.length_pos.mpr (List.ne_nil_of_mem this)

theorem aggregate_schedule_eq_map (df : List ScheduleRow) (view : String) :
    aggregate_schedule df view = (schedule_years df).map (fun y =>
      let group := df.filter (fun r => r.year = y)
      let paySum := (group.map (·.payment)).sum
      let prinSum := (group.map (·.principal)).sum
      let intSum := (group.map (·.interest)).sum
      let cnt : ℚ := (group.length : ℚ)
      if view = "Mensuel" then
        { year := y, payment := paySum / cnt, principal := prinSum / cnt,
          interest := intSum / cnt }
      else
        { year := y, payment := paySum, principal := prinSum, interest := intSum }) :=
  rfl

theorem aggregate_annuel_eq (df : List ScheduleRow) :
    aggregate_schedule df "Annuel" = (schedule_years df).map (fun y =>
      { year := y,
        payment := ((df.filter fun r => r.year = y).map (·.payment)).sum,
        principal := ((df.filter fun r => r.year = y).map (·.principal)).sum,
        interest := ((df.filter fun r => r.year = y).map (·.interest)).sum }) := by
  rw [aggregate_schedule_eq_map]
  refine List.map_congr_left ?_
  intro y _
  simp only [if_neg (show ("Annuel" : String) ≠ "Mensuel" by decide)]

theorem aggregate_mensuel_eq (df : List ScheduleRow) :
    aggregate_schedule df "Mensuel" = (schedule_years df).map (fun y =>
      { year := y,
        payment := ((df.filter fun r => r.year = y).map (·.payment)).sum /
          ((df.filter fun r => r.year = y).length : ℚ),
        principal := ((df.filter fun r => r.year = y).map (·.principal)).sum /
          ((df.filter fun r => r.year = y).length : ℚ),
        interest := ((df.filter fun r => r.year = y).map (·.interest)).sum /
          ((df.filter fun r => r.year = y).length : ℚ) }) := by
  rw [aggregate_schedule_eq_map]
  refine List.map_congr_left ?_
  intro y _
  simp only [if_pos trivial]

theorem aggregate_annuel_map_year (df : List ScheduleRow) :
    (aggregate_schedule df "Annuel").map (·.year) = schedule_years df := by
  rw [aggregate_annuel_eq, List.map_map]
  exact (List.map_congr_left fun y _ => rfl).trans (List.map_id _)

theorem schedule_years_pairwise_lt (df : List ScheduleRow) :
    (schedule_years df).Pairwise (· < ·) := by
  have hs : (schedule_years df).Pairwise (· ≤ ·) := schedule_years_sorted df
  have hn : (schedule_years df).Pairwise (· ≠ ·) := schedule_years_nodup df
  exact (hs.and hn).imp fun h => lt_of_le_of_ne h.1 h.2

theorem df_year_mem_schedule_years (df : List ScheduleRow) :
    ∀ x ∈ df, x.year ∈ schedule_years df := by
  intro x hx
  rw [mem_schedule_years]
  exact List.mem_map_of_mem _ hx

/-! ### Claims C2, C3, C5, C8, C10 -/

/-- C2: for every valid `LoanInputs` (the result in fact holds for all inputs),
`compute_monthly_schedule` returns exactly `years * 12` rows, the months are
`1, 2, …, years * 12` in order, and every row's `year` field equals
`⌈month / 12⌉`. -/
theorem C2_schedule_shape (loan : LoanInputs) :
    (compute_monthly_schedule loan).length = loan.years * 12 ∧
    (compute_monthly_schedule loan).map (·.month) = List.range' 1 (loan.years * 12) ∧
    ∀ r ∈ compute_monthly_schedule loan, r.year = ⌈(r.month : ℚ) / 12⌉ := by
  refine ⟨?_, ?_, ?_⟩
  · exact scheduleAux_length _ _ _ _ _
  · exact scheduleAux_map_month _ _ _ _ _
  · exact scheduleAux_year _ _ _ _ _

/-- C3: every row of every schedule satisfies
`payment = principalPortion + interestPortion` exactly. -/
theorem C3_payment_split (loan : LoanInputs) :
    (compute_monthly_schedule loan).Forall
      (fun r => r.payment = r.principal + r.interest) :=
  List.forall_iff_forall_mem.mpr fun r hr => (scheduleAux_row_sum _ _ _ _ _ r hr).1

/-- C5: at zero annual rate, every row's payment is
`principal / (years * 12)` and every row's interest is `0`. -/
theorem C5_zero_rate (loan : LoanInputs) (h : loan.annual_rate = 0) :
    (compute_monthly_schedule loan).Forall
      (fun r => r.payment = loan.principal / (loan.years * 12 : ℚ) ∧ r.interest = 0) := by
  rw [List.forall_iff_forall_mem]
  have hrate : monthly_rate loan = 0 := by
    simp [monthly_rate, h]
  have hpay : monthly_payment loan = loan.principal / (loan.years * 12 : ℚ) := by
    simp [monthly_payment, hrate, months]
  intro r hr
  constructor
  · have := (scheduleAux_row_sum _ _ _ _ _ r hr).2
    rw [this, hpay]
  · -- interest of every row is `balance * 0 = 0`
    have : ∀ (k : ℕ) (b : ℚ) (m : ℕ),
        ∀ r ∈ scheduleAux (0 : ℚ) (monthly_payment loan) b m k, r.interest = 0 := by
      intro k
      induction k with
      | zero => intro b m r hr; simp [scheduleAux] at hr
      | succ k ih =>
          intro b m r hr
          simp only [scheduleAux, List.mem_cons] at hr
          rcases hr with hh | hh
          · subst hh; simp
          · exact ih _ _ r hh
    have hr' := hr
    unfold compute_monthly_schedule at hr'
    rw [hrate] at hr'
    exact this _ _ _ r hr'

/-- Witness for C5 at the spec's example: principal 120000, zero rate, term
10 years. -/
theorem C5_zero_rate_witness :
    ((⟨120000, 0, 10⟩ : LoanInputs).annual_rate = 0) ∧
    (compute_monthly_schedule ⟨120000, 0, 10⟩).Forall
      (fun r => r.payment = (⟨120000, 0, 10⟩ : LoanInputs).principal /
        ((⟨120000, 0, 10⟩ : LoanInputs).years * 12 : ℚ) ∧ r.interest = 0) :=
  ⟨rfl, C5_zero_rate ⟨120000, 0, 10⟩ rfl⟩

/-- C8: `aggregate_schedule` is total on lists and yields the empty output on
the empty input, for every view string. -/
theorem C8_empty (view : String) : aggregate_schedule [] view = [] := by
  simp [aggregate_schedule]

/-- C10: the averaging branch fires only on the exact string `"Mensuel"`;
every other view string (such as `"Totals"` or `"MonthlyAverage"`) produces
the same output as `"Annuel"`, i.e. plain yearly totals. -/
theorem C10_view_dispatch (df : List ScheduleRow) (view : String)
    (h : view ≠ "Mensuel") :
    aggregate_schedule df view = aggregate_schedule df "Annuel" := by
  simp only [aggregate_schedule]
  refine List.map_congr_left ?_
  intro y _
  simp [h]

/-- Witness for C10 at a concrete unrecognized view string. -/
theorem C10_view_dispatch_witness :
    ("Totals" ≠ "Mensuel") ∧
      aggregate_schedule [] "Totals" = aggregate_schedule [] "Annuel" :=
  ⟨by decide, C10_view_dispatch [] "Totals" (by decide)⟩

/-- C6: in totals mode (view `"Annuel"`), the aggregator emits one row per
distinct year of the schedule, in strictly ascending year order; each row's
payment/principal/interest is the sum of those fields over that year's months,
and the grand totals over the yearly rows equal the grand totals over the
monthly rows. -/
theorem C6_yearly_totals (df : List ScheduleRow) :
    ((aggregate_schedule df "Annuel").map (·.year)).Pairwise (· < ·) ∧
    (∀ y : ℤ, y ∈ (aggregate_schedule df "Annuel").map (·.year) ↔
      y ∈ df.map (·.year)) ∧
    (∀ row ∈ aggregate_schedule df "Annuel",
      row.payment = ((df.filter fun r => r.year = row.year).map (·.payment)).sum ∧
      row.principal = ((df.filter fun r => r.year = row.year).map (·.principal)).sum ∧
      row.interest = ((df.filter fun r => r.year = row.year).map (·.interest)).sum) ∧
    ((aggregate_schedule df "Annuel").map (·.payment)).sum = (df.map (·.payment)).sum ∧
    ((aggregate_schedule df "Annuel").map (·.principal)).sum = (df.map (·.principal)).sum ∧
    ((aggregate_schedule df "Annuel").map (·.interest)).sum = (df.map (·.interest)).sum := by
  have hnd := schedule_years_nodup df
  have hmem := df_year_mem_schedule_years df
  refine ⟨?_, ?_, ?_, ?_, ?_, ?_⟩
  · rw [aggregate_annuel_map_year]
    exact schedule_years_pairwise_lt df
  · intro y
    rw [aggregate_annuel_map_year, mem_schedule_years]
  · intro row hrow
    rw [aggregate_annuel_eq, List.mem_map] at hrow
    obtain ⟨y, _, rfl⟩ := hrow
    exact ⟨rfl, rfl, rfl⟩
  · rw [aggregate_annuel_eq, List.map_map]
    exact sum_filter_partition (·.year) (·.payment) df _ hnd hmem
  · rw [aggregate_annuel_eq, List.map_map]
    exact sum_filter_partition (·.year) (·.principal) df _ hnd hmem
  · rw [aggregate_annuel_eq, List.map_map]
    exact sum_filter_partition (·.year) (·.interest) df _ hnd hmem

/-- C7: in average mode (view `"Mensuel"`), every output row equals that
year's summed payment/principal/interest divided by the number of months in
the year group, and multiplying back by the (nonzero) month count recovers the
year's totals. -/
theorem C7_yearly_averages (df : List ScheduleRow) :
    (aggregate_schedule df "Mensuel").Forall (fun row =>
      row.payment = ((df.filter fun r => r.year = row.year).map (·.payment)).sum /
        ((df.filter fun r => r.year = row.year).length : ℚ) ∧
      row.principal = ((df.filter fun r => r.year = row.year).map (·.principal)).sum /
        ((df.filter fun r => r.year = row.year).length : ℚ) ∧
      row.interest = ((df.filter fun r => r.year = row.year).map (·.interest)).sum /
        ((df.filter fun r => r.year = row.year).length : ℚ) ∧
      row.payment * ((df.filter fun r => r.year = row.year).length : ℚ) =
        ((df.filter fun r => r.year = row.year).map (·.payment)).sum ∧
      row.principal * ((df.filter fun r => r.year = row.year).length : ℚ) =
        ((df.filter fun r => r.year = row.year).map (·.principal)).sum ∧
      row.interest * ((df.filter fun r => r.year = row.year).length : ℚ) =
        ((df.filter fun r => r.year = row.year).map (·.interest)).sum) := by
  rw [List.forall_iff_forall_mem]
  intro row hrow
  rw [aggregate_mensuel_eq, List.mem_map] at hrow
  obtain ⟨y, hy, rfl⟩ := hrow
  have hpos := schedule_years_group_length_pos hy
  have hne : ((df.filter fun r => r.year = y).length : ℚ) ≠ 0 := by
    exact_mod_cast Nat.pos_iff_ne_zero.mp hpos
  exact ⟨rfl, rfl, rfl, div_mul_cancel₀ _ hne, div_mul_cancel₀ _ hne,
    div_mul_cancel₀ _ hne⟩

/-- C1: for a positive principal, positive annual rate and a term of at least
one year, the principal portions of the schedule sum to exactly the principal
(the claim allows a floating-point tolerance; over exact rational arithmetic
the identity is exact). -/
theorem C1_principal_total (loan : LoanInputs) (hP : 0 < loan.principal)
    (hr : 0 < loan.annual_rate) (hy : 1 ≤ loan.years) :
    ((compute_monthly_schedule loan).map (·.principal)).sum = loan.principal := by
  have hrpos := monthly_rate_pos hr
  have hn := months_ne_zero hy
  obtain ⟨hnonneg, _, hfinal⟩ := annuity_facts hrpos (le_of_lt hP) hn
  show ((scheduleAux (monthly_rate loan) (monthly_payment loan) loan.principal 1
      (months loan)).map (·.principal)).sum = loan.principal
  rw [monthly_payment_of_rate_ne (ne_of_gt hrpos)]
  rw [sum_principal_noclamp _ _ (months loan) loan.principal 1 hnonneg, hfinal, sub_zero]

/-- Witness for C1 at the spec's worked example: principal 700000, annual
rate 4 %, term 7 years. -/
theorem C1_principal_total_witness :
    (0 < (⟨700000, 4, 7⟩ : LoanInputs).principal) ∧
    (0 < (⟨700000, 4, 7⟩ : LoanInputs).annual_rate) ∧
    (1 ≤ (⟨700000, 4, 7⟩ : LoanInputs).years) ∧
    ((compute_monthly_schedule ⟨700000, 4, 7⟩).map (·.principal)).sum =
      (⟨700000, 4, 7⟩ : LoanInputs).principal :=
  ⟨by decide, by decide, by decide,
    C1_principal_total ⟨700000, 4, 7⟩ (by decide) (by decide) (by decide)⟩

/-- C4: under the documented input domain the loop-carried balance never goes
below zero, is monotonically non-increasing across the scheduled months, ends
at exactly zero after the last month, and is the quantity whose product with
the monthly rate is the interest column of the schedule. -/
theorem C4_balance_invariants (loan : LoanInputs) (hP : 0 ≤ loan.principal)
    (hr : 0 ≤ loan.annual_rate) (hy : 1 ≤ loan.years) :
    (∀ k, 0 ≤ balAfter (monthly_rate loan) (monthly_payment loan) loan.principal k) ∧
    (∀ k, k < months loan →
      balAfter (monthly_rate loan) (monthly_payment loan) loan.principal (k + 1) ≤
        balAfter (monthly_rate loan) (monthly_payment loan) loan.principal k) ∧
    balAfter (monthly_rate loan) (monthly_payment loan) loan.principal (months loan) = 0 ∧
    (compute_monthly_schedule loan).map (·.interest) =
      (List.range (months loan)).map
        (fun i => balAfter (monthly_rate loan) (monthly_payment loan) loan.principal i *
          monthly_rate loan) := by
  have hn := months_ne_zero hy
  have hmono_final :
      (∀ k, k < months loan →
        balAfter (monthly_rate loan) (monthly_payment loan) loan.principal (k + 1) ≤
          balAfter (monthly_rate loan) (monthly_payment loan) loan.principal k) ∧
      balAfter (monthly_rate loan) (monthly_payment loan) loan.principal (months loan)
        = 0 := by
    by_cases h0 : monthly_rate loan = 0
    · rw [monthly_payment_of_rate_eq h0, h0]
      exact ⟨fun k _ => balAfter_zero_rate_mono (by positivity) hP k,
        balAfter_zero_rate_final hP hn⟩
    · have hrpos : 0 < monthly_rate loan :=
        lt_of_le_of_ne (monthly_rate_nonneg hr) (Ne.symm h0)
      rw [monthly_payment_of_rate_ne h0]
      obtain ⟨hnonneg, hmono, hfinal⟩ := annuity_facts hrpos hP hn
      constructor
      · intro k hk
        rw [balAfter_eq_ubal _ _ _ (k + 1) (fun j hj => hnonneg j (le_trans hj hk)),
          balAfter_eq_ubal _ _ _ k (fun j hj => hnonneg j (le_trans hj (le_of_lt hk)))]
        exact hmono k
      · rw [balAfter_eq_ubal _ _ _ (months loan) hnonneg]
        exact hfinal
  exact ⟨balAfter_nonneg _ _ hP, hmono_final.1, hmono_final.2,
    scheduleAux_map_interest _ _ (months loan) loan.principal 1⟩

/-- Witness for C4 at principal 700000, annual rate 4 %, term 7 years. -/
theorem C4_balance_invariants_witness :
    (0 ≤ (⟨700000, 4, 7⟩ : LoanInputs).principal) ∧
    (0 ≤ (⟨700000, 4, 7⟩ : LoanInputs).annual_rate) ∧
    (1 ≤ (⟨700000, 4, 7⟩ : LoanInputs).years) ∧
    ((∀ k, 0 ≤ balAfter (monthly_rate ⟨700000, 4, 7⟩)
        (monthly_payment ⟨700000, 4, 7⟩) (⟨700000, 4, 7⟩ : LoanInputs).principal k) ∧
    (∀ k, k < months ⟨700000, 4, 7⟩ →
      balAfter (monthly_rate ⟨700000, 4, 7⟩) (monthly_payment ⟨700000, 4, 7⟩)
          (⟨700000, 4, 7⟩ : LoanInputs).principal (k + 1) ≤
        balAfter (monthly_rate ⟨700000, 4, 7⟩) (monthly_payment ⟨700000, 4, 7⟩)
          (⟨700000, 4, 7⟩ : LoanInputs).principal k) ∧
    balAfter (monthly_rate ⟨700000, 4, 7⟩) (monthly_payment ⟨700000, 4, 7⟩)
        (⟨700000, 4, 7⟩ : LoanInputs).principal (months ⟨700000, 4, 7⟩) = 0 ∧
    (compute_monthly_schedule ⟨700000, 4, 7⟩).map (·.interest) =
      (List.range (months ⟨700000, 4, 7⟩)).map
        (fun i => balAfter (monthly_rate ⟨700000, 4, 7⟩)
          (monthly_payment ⟨700000, 4, 7⟩) (⟨700000, 4, 7⟩ : LoanInputs).principal i *
            monthly_rate ⟨700000, 4, 7⟩)) :=
  ⟨by decide, by decide, by decide,
    C4_balance_invariants ⟨700000, 4, 7⟩ (by decide) (by decide) (by decide)⟩

/-- C9: over the documented domain every division of the core is guarded: the
month count is nonzero, the annuity denominator is nonzero whenever the
nonzero-rate branch is taken, and the valuation multiple is computed exactly
when EBITDA is positive and suppressed otherwise. -/
theorem C9_total_core (loan : LoanInputs) (hr : 0 ≤ loan.annual_rate)
    (hy : 1 ≤ loan.years) :
    ((months loan : ℚ) ≠ 0) ∧
    (monthly_rate loan ≠ 0 →
      1 - (1 + monthly_rate loan) ^ (-(months loan : ℤ)) ≠ 0) ∧
    (∀ s e : ℚ, 0 < e → valuation_multiple s e = some (s / e)) ∧
    (∀ s e : ℚ, ¬0 < e → valuation_multiple s e = none) := by
  refine ⟨Nat.cast_ne_zero.mpr (months_ne_zero hy), ?_, ?_, ?_⟩
  · intro hne
    have hpos : 0 < monthly_rate loan :=
      lt_of_le_of_ne (monthly_rate_nonneg hr) (Ne.symm hne)
    exact ne_of_gt (annuity_denom_pos hpos (months_ne_zero hy))
  · intro s e he
    rw [valuation_multiple, if_pos he]
  · intro s e he
    rw [valuation_multiple, if_neg he]

/-- Witness for C9 at annual rate 4 %, term 7 years. -/
theorem C9_total_core_witness :
    (0 ≤ (⟨700000, 4, 7⟩ : LoanInputs).annual_rate) ∧
    (1 ≤ (⟨700000, 4, 7⟩ : LoanInputs).years) ∧
    (((months ⟨700000, 4, 7⟩ : ℚ) ≠ 0) ∧
    (monthly_rate ⟨700000, 4, 7⟩ ≠ 0 →
      1 - (1 + monthly_rate ⟨700000, 4, 7⟩) ^ (-(months ⟨700000, 4, 7⟩ : ℤ)) ≠ 0) ∧
    (∀ s e : ℚ, 0 < e → valuation_multiple s e = some (s / e)) ∧
    (∀ s e : ℚ, ¬0 < e → valuation_multiple s e = none)) :=
  ⟨by decide, by decide, C9_total_core ⟨700000, 4, 7⟩ (by decide) (by decide)⟩

end LBO
